import Mathlib

/-!
Shallow embedding of `Mayur_Network.py`, a static traffic-assignment module
(classes `Node`, `OD`, `Link`, `Network` with methods `CalcCost`,
`ShortestPath`, `AON`, `UE`, and the link-validation step of
`ReadNetworkFile`).

Modelling conventions:
* Python floats are modelled as rationals `ℚ`; the BPR exponent `beta`
  (`4` in every use) is modelled as a natural exponent since `ℚ` has no
  real-valued power.
* `float('inf')` node potentials are modelled as `Option ℚ` with `none`
  standing for `+inf`; the comparisons and the addition used by the code
  (`inf + c = inf`, `x > inf` false, `inf > finite` true, `inf == inf` true)
  are spelled out as `potAdd`, `potGt`, `potLe`, `potMin`.
* Node search state (`potential`, `pre`) lives in the `Network` record as
  index-based tables, mirroring the per-node mutable fields; methods that
  mutate state are state-passing functions returning the updated network.
* Python exceptions are modelled with `Except PyError`; a `while` loop
  whose termination is not structurally evident is run on fuel, exact for
  `ShortestPath` (each pass removes exactly one element of `scanList`) and
  with fuel exhaustion reported as `none`/an error elsewhere.
* Node IDs are the 1-based integers of the file format; internal indices
  are ID - 1.  Python's negative-index access (only reachable for
  `firstThroughNode = 0` or node ID `0`, which the TNTP format excludes)
  is not reproduced: `ℕ` subtraction truncates at 0.
-/

namespace MayurNet

/-- The Python exceptions the module can raise, plus `nonTermination`, a
marker meaning a `while` loop was still running when the modelling fuel
ran out (the Python program makes no further observable progress). -/
inductive PyError where
  | typeError
  | zeroDivision
  | badFileFormat
  | nameError
  | nonTermination
  deriving DecidableEq

/-- The static and mutable fields of class `Link` (the fields `ID` and
`linkType` play no role in any computation and are omitted; `beta` is a
natural exponent, see the module comment). -/
structure Link where
  tail : ℕ
  head : ℕ
  capacity : ℚ
  length : ℚ
  freeFlowTime : ℚ
  alpha : ℚ
  beta : ℕ
  speedLimit : ℚ
  toll : ℚ
  flow : ℚ
  cost : ℚ
  deriving DecidableEq

/-- `Link.CalcCost`: sets `cost` to
`freeFlowTime*(1 + alpha*(flow/capacity)^beta) + distanceFactor*length
+ tollFactor*toll`, computed exactly as the three summands
`travelT`, `DistanceCost`, `TollCost` of the source, leaving every other
field unchanged. -/
def CalcCost (l : Link) (distanceFactor tollFactor : ℚ) : Link :=
  let travelT := l.freeFlowTime * (1 + l.alpha * (l.flow / l.capacity) ^ l.beta)
  let DistanceCost := distanceFactor * l.length
  let TollCost := tollFactor * l.toll
  { l with cost := travelT + DistanceCost + TollCost }

/-- The transient per-node search state (`Node.potential`, `Node.pre`),
as tables over node indices; `pot i = none` is `potential = inf`,
`pre i = none` is `pre = None`. -/
structure SPState where
  pot : ℕ → Option ℚ
  pre : ℕ → Option ℕ

/-- Pointwise table update. -/
def upd {α : Type} (f : ℕ → α) (i : ℕ) (v : α) : ℕ → α :=
  fun j => if j = i then v else f j

/-- `currentNode.potential + link.cost` with `inf + c = inf`. -/
def potAdd : Option ℚ → ℚ → Option ℚ
  | none, _ => none
  | some a, c => some (a + c)

/-- The float comparison `a > b` on potentials (`inf > inf` is false). -/
def potGt : Option ℚ → Option ℚ → Prop
  | none, none => False
  | none, some _ => True
  | some _, none => False
  | some a, some b => b < a

instance (a b : Option ℚ) : Decidable (potGt a b) :=
  match a, b with
  | none, none => isFalse id
  | none, some _ => isTrue trivial
  | some _, none => isFalse id
  | some a, some b => inferInstanceAs (Decidable (b < a))

/-- The float comparison `a <= b` on potentials (`inf <= inf` is true). -/
def potLe : Option ℚ → Option ℚ → Prop
  | none, none => True
  | some _, none => True
  | none, some _ => False
  | some a, some b => a ≤ b

instance (a b : Option ℚ) : Decidable (potLe a b) :=
  match a, b with
  | none, none => isTrue trivial
  | some _, none => isTrue trivial
  | none, some _ => isFalse id
  | some a, some b => inferInstanceAs (Decidable (a ≤ b))

/-- Binary minimum of potentials, `inf` neutral. -/
def potMin : Option ℚ → Option ℚ → Option ℚ
  | none, b => b
  | some a, none => some a
  | some a, some b => some (min a b)

/-- Python `min(potentials)` (minimum of a list of floats, `inf` for the
empty list, which the code never forms). -/
def listMin : List (Option ℚ) → Option ℚ
  | [] => none
  | x :: xs => potMin x (listMin xs)

/-- `potentials.index(min(potentials))`: the position of the first element
attaining the minimum (Python `min` returns the first minimal element and
`index` the first position equal to it). -/
def argminPos : List (Option ℚ) → ℕ
  | [] => 0
  | x :: xs => if potLe x (listMin xs) then 0 else argminPos xs + 1

/-- The aggregate state of class `Network` used by the core methods:
metadata, the link dictionary in insertion order (keys `(tail, head)`
unique as in the Python dict), the per-node search state, and the
two-level OD structure flattened to insertion-ordered association lists
`origin ↦ [(destination, demand), ...]`. -/
structure Network where
  numNodes : ℕ
  firstThroughNode : ℕ
  links : List Link
  pot : ℕ → Option ℚ
  pre : ℕ → Option ℕ
  ODpairs : List (ℕ × List (ℕ × ℚ))

/-- `node.forwardStar` for the node with ID `id`: the links whose tail is
that node, in creation order (as built by `ReadNetworkFile`). -/
def forwardStar (net : Network) (id : ℕ) : List Link :=
  net.links.filter (fun l => l.tail = id)

/-- `scanList = [i for i in range(self.firstThroughNode - 1, self.numNodes)]`. -/
def scanList0 (net : Network) : List ℕ :=
  List.range' (net.firstThroughNode - 1) (net.numNodes - (net.firstThroughNode - 1))

/-- The initialization of `ShortestPath`: every node reset to
`(inf, None)`, then the origin's potential set to `0`. -/
def initState (origin : ℕ) : SPState :=
  { pot := upd (fun _ => none) (origin - 1) (some 0), pre := fun _ => none }

/-- One relaxation of `link` out of the node with index `idx`
(`if node.potential > currentNode.potential + link.cost: update`);
the target node is `self.nodes[link.head - 1]` and the recorded
predecessor is `currentNode.ID = idx + 1`. -/
def relaxStep (st : SPState) (idx : ℕ) (link : Link) : SPState :=
  if potGt (st.pot (link.head - 1)) (potAdd (st.pot idx) link.cost) then
    { pot := upd st.pot (link.head - 1) (potAdd (st.pot idx) link.cost),
      pre := upd st.pre (link.head - 1) (some (idx + 1)) }
  else st

/-- The `for link in currentNode.forwardStar` relaxation loop. -/
def relaxAll (st : SPState) (idx : ℕ) (fs : List Link) : SPState :=
  fs.foldl (fun s l => relaxStep s idx l) st

/-- The `while scanList != []` loop of `ShortestPath`: select the node of
minimum potential (first position on ties), remove it, relax its forward
star.  Run on fuel; each pass removes exactly one element, so fuel
`scanList.length` is exact. -/
def spLoop (net : Network) : ℕ → List ℕ → SPState → SPState
  | 0, _, st => st
  | _ + 1, [], st => st
  | fuel + 1, i :: rest, st =>
      let scanList := i :: rest
      let pots := scanList.map st.pot
      let pos := argminPos pots
      let idx := scanList.getD pos 0
      spLoop net fuel (scanList.eraseIdx pos) (relaxAll st idx (forwardStar net (idx + 1)))

/-- `Network.ShortestPath(origin)`: returns the network with its node
search state rewritten by the search, and the tuple
`((node.potential, node.pre) for node in self.nodes)`. -/
def ShortestPath (net : Network) (origin : ℕ) :
    Network × List (Option ℚ × Option ℕ) :=
  let sl := scanList0 net
  let st := spLoop net sl.length sl (initState origin)
  ({ net with pot := st.pot, pre := st.pre },
   (List.range net.numNodes).map (fun i => (st.pot i, st.pre i)))

/-- The initial AON dictionary
`dict(zip(list(self.links.keys()), [0]*len(...)))`: every link key mapped
to `0`, in insertion order. -/
def initFlow (net : Network) : List ((ℕ × ℕ) × ℚ) :=
  net.links.map (fun l => ((l.tail, l.head), 0))

/-- `AON_flow[key] += d`.  The Python `+=` requires `key` to be present;
every key the trace produces is a `(tail, head)` of a link (predecessors
are only ever set while relaxing a link of the tail's forward star), so
on an absent key — unreachable for the states `AON` builds — this is a
no-op rather than a `KeyError`. -/
def bump (m : List ((ℕ × ℕ) × ℚ)) (key : ℕ × ℕ) (d : ℚ) :
    List ((ℕ × ℕ) × ℚ) :=
  m.map (fun e => if e.1 = key then (e.1, e.2 + d) else e)

/-- The predecessor-chain walk of `AON`:
`x = d; while SPath[x-1][1] is not None: AON_flow[(SPath[x-1][1], x)] += demands; x = SPath[x-1][1]`.
Run on fuel (`none` = the walk did not reach a `None` predecessor within
fuel steps, i.e. the Python loop is still running); a terminating chain
visits distinct nodes, so fuel `numNodes` is enough for every chain the
Python loop finishes. -/
def traceBack (sp : List (Option ℚ × Option ℕ)) (dem : ℚ) :
    ℕ → ℕ → List ((ℕ × ℕ) × ℚ) → Option (List ((ℕ × ℕ) × ℚ))
  | 0, x, m =>
      match (sp.getD (x - 1) (none, none)).2 with
      | none => some m
      | some _ => none
  | fuel + 1, x, m =>
      match (sp.getD (x - 1) (none, none)).2 with
      | none => some m
      | some p => traceBack sp dem fuel p (bump m (p, x) dem)

/-- The body of `AON`'s inner loop (`for d in self.ODpairs[o]`): walk the
predecessor chain of destination `dd.1` with demand `dd.2`, on the
running flow dictionary. -/
def aonDest (sp : List (Option ℚ × Option ℕ)) (numN : ℕ)
    (mo : Option (List ((ℕ × ℕ) × ℚ))) (dd : ℕ × ℚ) :
    Option (List ((ℕ × ℕ) × ℚ)) :=
  mo.bind (fun m => traceBack sp dd.2 numN dd.1 m)

/-- The body of `AON`'s outer loop (`for o in self.ODpairs`): run
`ShortestPath` from the origin and process each of its destinations. -/
def aonOrigin (acc : Network × Option (List ((ℕ × ℕ) × ℚ)))
    (od : ℕ × List (ℕ × ℚ)) : Network × Option (List ((ℕ × ℕ) × ℚ)) :=
  let res := ShortestPath acc.1 od.1
  (res.1, od.2.foldl (aonDest res.2 res.1.numNodes) acc.2)

/-- `Network.AON()`: for each origin of `ODpairs` (insertion order) run
`ShortestPath`, then for each of its destinations walk the predecessor
chain adding the OD demand to every traversed link's entry.  Returns the
network (its node search state rewritten by the searches, nothing else)
and the flow dictionary; `none` models a non-terminating chain walk. -/
def AON (net : Network) : Network × Option (List ((ℕ × ℕ) × ℚ)) :=
  net.ODpairs.foldl aonOrigin (net, some (initFlow net))

/-- The `while (converge > tolerance)` loop of `UE` as executed when
`self.links` is empty: the body (`for ij in self.links: ...`) does
nothing, and `converge` keeps its initial value `5`.  Returns `true` iff
the loop exits within the given number of passes. -/
def ueWhileEmptyBody (tolerance converge : ℚ) : ℕ → Bool
  | 0 => false
  | fuel + 1 =>
      if tolerance < converge then ueWhileEmptyBody tolerance converge fuel
      else true

/-- `Network.UE(tolerance)`.  The source first computes
`flow_AON = self.AON()` and then runs
`for ij in self.links: self.links[ij].flow = flow_AON(ij)`, which calls
the dictionary `flow_AON` as a function: on any network with at least one
link this raises `TypeError` before the main loop is reached.  With no
links, the initialization loop is empty and the
`while (converge > tolerance)` loop runs with an empty body and
`converge = 5` forever (fuel models the passes); its body would in any
case stop at the undefined name `counter` (`PyError.nameError` is
unreachable here and recorded only in the error type). -/
def UE (net : Network) (tolerance : ℚ) (fuel : ℕ) : Except PyError Network :=
  match (AON net).2 with
  | none => Except.error PyError.nonTermination
  | some _ =>
      match net.links with
      | [] =>
          if ueWhileEmptyBody tolerance 5 fuel then Except.ok net
          else Except.error PyError.nonTermination
      | _ :: _ => Except.error PyError.typeError

/-- The per-link validity check of `ReadNetworkFile` (lines 293-299):
`True` (raise `BadFileFormatException`) iff some parameter is strictly
negative.  `beta` is a natural number in this model, so its `beta < 0`
disjunct is omitted. -/
def linkParamsNegative (l : Link) : Prop :=
  l.capacity < 0 ∨ l.length < 0 ∨ l.freeFlowTime < 0 ∨ l.alpha < 0 ∨
    l.speedLimit < 0 ∨ l.toll < 0

instance (l : Link) : Decidable (linkParamsNegative l) := by
  unfold linkParamsNegative; infer_instance

/-- The per-link processing of `ReadNetworkFile`: the negativity check,
then `tempLink.CalcCost(...)`.  Python evaluates `self.flow/self.capacity`
inside `CalcCost` and raises `ZeroDivisionError` when `capacity == 0`
(also for `flow == 0`: float `0/0.0` raises), which this branch records;
`ℚ` division itself is total, so the branch is explicit. -/
def processLink (l : Link) (distanceFactor tollFactor : ℚ) :
    Except PyError Link :=
  if linkParamsNegative l then Except.error PyError.badFileFormat
  else if l.capacity = 0 then Except.error PyError.zeroDivision
  else Except.ok (CalcCost l distanceFactor tollFactor)

/-! Concrete networks used to evaluate the code. -/

/-- The single link of the 2-node scenario of the spec (capacity 100,
free-flow time 10, alpha 0.15, beta 4), with its load-time cost 10. -/
def linkSL : Link :=
  { tail := 1, head := 2, capacity := 100, length := 0, freeFlowTime := 10,
    alpha := 3/20, beta := 4, speedLimit := 50, toll := 0, flow := 0, cost := 10 }

/-- The 2-node, 1-link network with one OD pair of demand 50. -/
def netSL : Network :=
  { numNodes := 2, firstThroughNode := 1, links := [linkSL],
    pot := fun _ => none, pre := fun _ => none, ODpairs := [(1, [(2, 50)])] }

/-- The empty placeholder network (no links, no demand). -/
def netEmpty : Network :=
  { numNodes := 0, firstThroughNode := 1, links := [],
    pot := fun _ => none, pre := fun _ => none, ODpairs := [] }

/-- A link from node 2 to node 3 with stored cost 4. -/
def link23 : Link :=
  { tail := 2, head := 3, capacity := 100, length := 0, freeFlowTime := 4,
    alpha := 3/20, beta := 4, speedLimit := 50, toll := 0, flow := 0, cost := 4 }

/-- A 3-node network whose only link is `link23`, with one OD pair
(origin 1, destination 3, demand 5): destination 3 is unreachable from
origin 1. -/
def netUnreach : Network :=
  { numNodes := 3, firstThroughNode := 1, links := [link23],
    pot := fun _ => none, pre := fun _ => none, ODpairs := [(1, [(3, 5)])] }

/-- A link from node 1 to node 2 with stored cost 5. -/
def link12 : Link :=
  { tail := 1, head := 2, capacity := 100, length := 0, freeFlowTime := 5,
    alpha := 3/20, beta := 4, speedLimit := 50, toll := 0, flow := 0, cost := 5 }

/-- A 2-node, 1-link network whose first-through-node threshold is 2, so
that origin 1 lies below the threshold. -/
def netBelow : Network :=
  { numNodes := 2, firstThroughNode := 2, links := [link12],
    pot := fun _ => none, pre := fun _ => none, ODpairs := [] }

/-- A link record with capacity 0 and all other parameters non-negative. -/
def linkZeroCap : Link :=
  { tail := 1, head := 2, capacity := 0, length := 1, freeFlowTime := 1,
    alpha := 3/20, beta := 4, speedLimit := 30, toll := 0, flow := 0, cost := 0 }

/-! Claim theorems. -/

/-- Claim C1 (code_bug evaluation).  `Network.UE` never reaches the main
loop described by the claim: on the 2-node, 1-link network it raises
`TypeError` at `self.links[ij].flow = flow_AON(ij)` (the AON dictionary
called as a function), so no pass ever computes `move`, rewrites flows,
sets the convergence metric, or increments the iteration counter. -/
theorem UE_typeError_before_main_loop :
    netSL.links.length = 1 ∧ UE netSL (1/100) 9 = Except.error PyError.typeError := by
  constructor
  · rfl
  · norm_num [UE, AON, ShortestPath, scanList0, spLoop, initState, relaxAll,
      relaxStep, forwardStar, argminPos, listMin, potMin, potLe, potGt, potAdd,
      upd, netSL, linkSL, List.range', List.range_succ, List.eraseIdx,
      List.getD, List.filter, initFlow, traceBack, bump, aonOrigin, aonDest]

/-- The `while` loop of `UE` with an empty body never exits for a
tolerance below the initial `converge = 5`. -/
theorem ueWhileEmptyBody_stuck (t : ℚ) (ht : t < 5) :
    ∀ fuel : ℕ, ueWhileEmptyBody t 5 fuel = false := by
  intro fuel
  induction fuel with
  | zero => rfl
  | succ f ih =>
      rw [ueWhileEmptyBody, if_pos ht]
      exact ih

/-- Claim C2 (code_bug evaluation).  `Network.UE` has no iteration bound
and does not terminate on the empty network for the default tolerance
`10^(-2)`: `converge` is never reassigned, so the `while` loop never
exits, whatever fuel it is given.  (On any network with a link it instead
raises `TypeError` before the loop; see the C1 theorem.) -/
theorem UE_no_iteration_bound :
    ∀ fuel : ℕ, UE netEmpty (1/100) fuel = Except.error PyError.nonTermination := by
  intro fuel
  show (if ueWhileEmptyBody (1/100) 5 fuel then Except.ok netEmpty
        else Except.error PyError.nonTermination) = _
  rw [ueWhileEmptyBody_stuck (1/100) (by norm_num) fuel]
  simp

/-- Claim C3 (code_bug evaluation).  On `netUnreach`, destination 3 is
unreachable from origin 1, yet `AON` raises nothing and returns the
all-zero flow dictionary: the predecessor-chain `while` loop exits
immediately on the absent predecessor and the OD pair's demand 5 is
silently dropped. -/
theorem AON_silently_drops_unreachable_demand :
    netUnreach.ODpairs = [(1, [(3, 5)])] ∧
      (AON netUnreach).2 = some [((2, 3), 0)] := by
  constructor
  · rfl
  · norm_num [AON, ShortestPath, scanList0, spLoop, initState, relaxAll,
      relaxStep, forwardStar, argminPos, listMin, potMin, potLe, potGt, potAdd,
      upd, netUnreach, link23, List.range', List.range_succ, List.eraseIdx,
      List.getD, List.filter, initFlow, traceBack, bump, aonOrigin, aonDest]

/-- Claim C5.  For every link with positive capacity and every pair of
weighting factors, `CalcCost` returns the link with its cost set to
`freeFlowTime * (1 + alpha * (flow/capacity)^beta)
+ distanceFactor*length + tollFactor*toll` and every other field
unchanged. -/
theorem CalcCost_formula (l : Link) (distanceFactor tollFactor : ℚ)
    (_hcap : 0 < l.capacity) :
    CalcCost l distanceFactor tollFactor =
      { l with cost := l.freeFlowTime * (1 + l.alpha * (l.flow / l.capacity) ^ l.beta)
          + distanceFactor * l.length + tollFactor * l.toll } := rfl

/-- Witness for the C5 theorem at the concrete link `linkSL` with zero
weighting factors: the BPR cost at flow 0 is the free-flow time 10. -/
theorem CalcCost_formula_witness :
    CalcCost linkSL 0 0 = { linkSL with cost := 10 } := by
  rw [CalcCost_formula linkSL 0 0 (by norm_num [linkSL])]
  norm_num [linkSL]

/-- Claim C7 (code_bug evaluation).  A link record with capacity 0 passes
the load-time validity check of `ReadNetworkFile` (which only rejects
strictly negative parameters) and instead crashes with
`ZeroDivisionError` inside the immediate `CalcCost` call — at
cost-evaluation, not as a configuration error. -/
theorem zero_capacity_passes_check_then_divides_by_zero :
    ¬ linkParamsNegative linkZeroCap ∧
      processLink linkZeroCap 0 0 = Except.error PyError.zeroDivision := by
  constructor
  · norm_num [linkParamsNegative, linkZeroCap]
  · norm_num [processLink, linkParamsNegative, linkZeroCap]

/-! Generic facts about the selection and relaxation steps. -/

theorem potGt_none (x : Option ℚ) : potGt x none = False := by
  cases x <;> rfl

theorem potLe_none (x : Option ℚ) : potLe x none = True := by
  cases x <;> rfl

/-- The selected position is within the scan list. -/
theorem argminPos_lt_length :
    ∀ l : List (Option ℚ), l ≠ [] → argminPos l < l.length := by
  intro l hl
  induction l with
  | nil => exact absurd rfl hl
  | cons x xs ih =>
      rw [argminPos]
      by_cases h : potLe x (listMin xs)
      · rw [if_pos h]; simp
      · rw [if_neg h]
        have hxs : xs ≠ [] := by
          intro he; subst he
          exact h (by cases x <;> trivial)
        simpa using Nat.succ_lt_succ (ih hxs)

theorem getD_mem {l : List ℕ} {pos : ℕ} (h : pos < l.length) (d : ℕ) :
    l.getD pos d ∈ l := by
  rw [List.getD_eq_getElem l d h]
  exact List.getElem_mem h

/-- A relaxation from a node of infinite potential changes nothing. -/
theorem relaxStep_pot_none (st : SPState) (idx : ℕ) (l : Link)
    (h : st.pot idx = none) : relaxStep st idx l = st := by
  rw [relaxStep]
  simp [h, potAdd, potGt_none]

theorem relaxAll_pot_none (st : SPState) (idx : ℕ) (fs : List Link)
    (h : st.pot idx = none) : relaxAll st idx fs = st := by
  induction fs with
  | nil => rfl
  | cons l fs ih =>
      show relaxAll (relaxStep st idx l) idx fs = st
      rw [relaxStep_pot_none st idx l h]
      exact ih

/-- If every node still in the scan list has infinite potential, the rest
of the search changes nothing: relaxations out of infinite-potential
nodes are all no-ops. -/
theorem spLoop_frozen (net : Network) :
    ∀ (fuel : ℕ) (scanList : List ℕ) (st : SPState),
      (∀ i ∈ scanList, st.pot i = none) →
      spLoop net fuel scanList st = st := by
  intro fuel
  induction fuel with
  | zero => intro scanList st _; rfl
  | succ f ih =>
      intro scanList st h
      match scanList with
      | [] => rfl
      | i :: rest =>
          have hlt : argminPos ((i :: rest).map st.pot) < (i :: rest).length := by
            simpa using argminPos_lt_length ((i :: rest).map st.pot) (by simp)
          have hmem : (i :: rest).getD (argminPos ((i :: rest).map st.pot)) 0 ∈ i :: rest :=
            getD_mem hlt 0
          simp only [spLoop]
          rw [relaxAll_pot_none _ _ _ (h _ hmem)]
          exact ih _ st (fun j hj => h j (List.eraseIdx_subset _ _ hj))

/-- Claim C6 counterexample.  On `netBelow` (one link from node 1 to node
2, first-through-node threshold 2) the origin 1 lies below the threshold:
`ShortestPath(1)` never scans the origin, so its outgoing link is never
relaxed and node 2 ends with potential `inf` and no predecessor — not the
`(cost, origin)` entry the origin-exemption of the claim would give. -/
theorem sp_origin_not_exempt_cex :
    netBelow.links = [link12] ∧ link12.tail = 1 ∧ link12.head = 2 ∧
    (ShortestPath netBelow 1).2.getD 1 (none, none) = (none, none) ∧
    ((none : Option ℚ), (none : Option ℕ)) ≠ (some link12.cost, some 1) := by
  refine ⟨rfl, rfl, rfl, ?_, by simp [link12]⟩
  norm_num [ShortestPath, scanList0, spLoop, initState, relaxAll, relaxStep,
    forwardStar, argminPos, listMin, potMin, potLe, potGt, potAdd, upd,
    netBelow, link12, List.range', List.range_succ, List.eraseIdx,
    List.getD, List.filter]

/-- Claim C6 amended.  The candidate set is restricted to nodes with
index ≥ the first-through-node threshold − 1 with no exemption for the
origin: for every network whose origin's ID is below the threshold, the
origin is never selected, none of its outgoing links are relaxed, and the
search returns with every node except the origin still at
`(inf, None)` — both in the returned table and in the node state. -/
theorem sp_below_threshold_origin_never_relaxed (net : Network) (origin : ℕ)
    (h1 : 1 ≤ origin) (h2 : origin < net.firstThroughNode) :
    (ShortestPath net origin).2 =
      (List.range net.numNodes).map
        (fun i => (if i = origin - 1 then some (0 : ℚ) else none, (none : Option ℕ))) ∧
    (ShortestPath net origin).1.pot = (initState origin).pot ∧
    (ShortestPath net origin).1.pre = (initState origin).pre := by
  have hfrozen :
      spLoop net (scanList0 net).length (scanList0 net) (initState origin)
        = initState origin := by
    apply spLoop_frozen
    intro i hi
    have hrange : net.firstThroughNode - 1 ≤ i := by
      rcases List.mem_range'_1.mp hi with ⟨hle, _⟩
      exact hle
    have hne : i ≠ origin - 1 := by omega
    simp [initState, upd, hne]
  refine ⟨?_, ?_, ?_⟩
  · show (List.range net.numNodes).map
        (fun i => ((spLoop net (scanList0 net).length (scanList0 net) (initState origin)).pot i,
                   (spLoop net (scanList0 net).length (scanList0 net) (initState origin)).pre i)) = _
    rw [hfrozen]
    simp [initState, upd]
  · show (spLoop net (scanList0 net).length (scanList0 net) (initState origin)).pot = _
    rw [hfrozen]
  · show (spLoop net (scanList0 net).length (scanList0 net) (initState origin)).pre = _
    rw [hfrozen]

/-- Witness for the amended C6 theorem at `netBelow` with origin 1. -/
theorem sp_below_threshold_witness :
    (ShortestPath netBelow 1).2 =
      [((some (0 : ℚ) : Option ℚ), (none : Option ℕ)), (none, none)] := by
  rw [(sp_below_threshold_origin_never_relaxed netBelow 1 (by norm_num)
    (by norm_num [netBelow])).1]
  norm_num [netBelow, List.range_succ]

/-- A two-node network with exactly one link and no demand. -/
def singleLinkNet (l : Link) (ftn : ℕ) : Network :=
  { numNodes := 2, firstThroughNode := ftn, links := [l],
    pot := fun _ => none, pre := fun _ => none, ODpairs := [] }

/-- Claim C8 counterexample.  `netBelow` is a single-link network (one
link, node 1 to node 2, stored cost 5) whose first-through-node threshold
is 2: `ShortestPath` from the tail leaves the head at `(inf, None)`
instead of returning the link's cost and the tail as predecessor. -/
theorem sp_single_link_cex :
    netBelow.links = [link12] ∧
    (ShortestPath netBelow link12.tail).2.getD (link12.head - 1) (none, none) ≠
      (some link12.cost, some link12.tail) := by
  refine ⟨rfl, ?_⟩
  norm_num [ShortestPath, scanList0, spLoop, initState, relaxAll, relaxStep,
    forwardStar, argminPos, listMin, potMin, potLe, potGt, potAdd, upd,
    netBelow, link12, List.range', List.range_succ, List.eraseIdx,
    List.getD, List.filter]
  exact fun h => Option.noConfusion h

/-- Claim C8 amended.  For every two-node single-link network whose tail
and head are the two distinct nodes and whose tail ID is at least the
first-through-node threshold (which is at least 1), `ShortestPath` from
the tail returns the link's stored cost as the head's potential and the
tail as the head's predecessor. -/
theorem sp_single_link (l : Link) (ftn : ℕ)
    (hshape : (l.tail = 1 ∧ l.head = 2) ∨ (l.tail = 2 ∧ l.head = 1))
    (hftn1 : 1 ≤ ftn) (hftn2 : ftn ≤ l.tail) :
    (ShortestPath (singleLinkNet l ftn) l.tail).2.getD (l.head - 1) (none, none) =
      (some l.cost, some l.tail) := by
  rcases hshape with ⟨ht, hh⟩ | ⟨ht, hh⟩
  · have hf : ftn = 1 := by omega
    subst hf
    norm_num [ShortestPath, scanList0, spLoop, initState, relaxAll, relaxStep,
      forwardStar, argminPos, listMin, potMin, potLe, potGt, potAdd, upd,
      singleLinkNet, ht, hh, List.range', List.range_succ, List.eraseIdx,
      List.getD, List.filter]
  · have hf : ftn = 1 ∨ ftn = 2 := by omega
    rcases hf with hf | hf <;> subst hf <;>
      norm_num [ShortestPath, scanList0, spLoop, initState, relaxAll, relaxStep,
        forwardStar, argminPos, listMin, potMin, potLe, potGt, potAdd, upd,
        singleLinkNet, ht, hh, List.range', List.range_succ, List.eraseIdx,
        List.getD, List.filter]

/-- Witness for the amended C8 theorem: the single-link network on
`link12` with threshold 1, searched from tail 1. -/
theorem sp_single_link_witness :
    (ShortestPath (singleLinkNet link12 1) 1).2.getD 1 (none, none) =
      (some (5 : ℚ), some 1) := by
  have h := sp_single_link link12 1 (Or.inl ⟨rfl, rfl⟩) (by norm_num)
    (by norm_num [link12])
  simpa [link12] using h

/-! Reachability under the through-node restriction, and the invariant
that only reachable nodes acquire a finite potential or a predecessor. -/

/-- Reachability from `origin` under the through-node restriction: a path
may continue out of a node only if that node is the origin or its ID is
at least the first-through-node threshold.  (The code is stricter still —
it never relaxes from a below-threshold origin — so this relation
over-approximates the nodes the search can touch.) -/
inductive Reach (net : Network) (origin : ℕ) : ℕ → Prop where
  | refl : Reach net origin origin
  | step {i j : ℕ} {l : Link} (hr : Reach net origin i)
      (hth : i = origin ∨ net.firstThroughNode ≤ i)
      (hl : l ∈ net.links) (ht : l.tail = i) (hh : l.head = j) :
      Reach net origin j

/-- Search-state invariant: a node with a finite potential or a recorded
predecessor is reachable from the origin under the restriction. -/
def ReachInv (net : Network) (origin : ℕ) (st : SPState) : Prop :=
  ∀ j : ℕ, (st.pot j ≠ none → Reach net origin (j + 1)) ∧
           (st.pre j ≠ none → Reach net origin (j + 1))

theorem relaxStep_reachInv (net : Network) (origin : ℕ) (st : SPState)
    (idx : ℕ) (l : Link)
    (hth : net.firstThroughNode ≤ idx + 1)
    (hl : l ∈ net.links) (ht : l.tail = idx + 1) (hhead : 1 ≤ l.head)
    (hinv : ReachInv net origin st) :
    ReachInv net origin (relaxStep st idx l) := by
  rw [relaxStep]
  by_cases hc : potGt (st.pot (l.head - 1)) (potAdd (st.pot idx) l.cost)
  · rw [if_pos hc]
    have hpot : st.pot idx ≠ none := by
      intro hn
      rw [hn] at hc
      simp only [potAdd, potGt_none] at hc
    have hreachHead : Reach net origin l.head :=
      Reach.step ((hinv idx).1 hpot) (Or.inr hth) hl ht rfl
    intro j
    by_cases hje : j = l.head - 1
    · subst hje
      have heq : l.head - 1 + 1 = l.head := by omega
      constructor
      · intro _; rw [heq]; exact hreachHead
      · intro _; rw [heq]; exact hreachHead
    · constructor
      · intro hj
        exact (hinv j).1 (by simpa [upd, hje] using hj)
      · intro hj
        exact (hinv j).2 (by simpa [upd, hje] using hj)
  · rw [if_neg hc]
    exact hinv

theorem relaxAll_reachInv (net : Network) (origin : ℕ) (st : SPState)
    (idx : ℕ) (fs : List Link)
    (hth : net.firstThroughNode ≤ idx + 1)
    (hfs : ∀ l ∈ fs, l ∈ net.links ∧ l.tail = idx + 1)
    (hheads : ∀ l ∈ net.links, 1 ≤ l.head)
    (hinv : ReachInv net origin st) :
    ReachInv net origin (relaxAll st idx fs) := by
  induction fs generalizing st with
  | nil => exact hinv
  | cons l fs ih =>
      show ReachInv net origin (relaxAll (relaxStep st idx l) idx fs)
      have hmem := hfs l (List.mem_cons_self l fs)
      exact ih _ (fun m hm => hfs m (List.mem_cons_of_mem _ hm))
        (relaxStep_reachInv net origin st idx l hth hmem.1 hmem.2
          (hheads l hmem.1) hinv)

theorem spLoop_reachInv (net : Network) (origin : ℕ)
    (hheads : ∀ l ∈ net.links, 1 ≤ l.head) :
    ∀ (fuel : ℕ) (scanList : List ℕ) (st : SPState),
      (∀ i ∈ scanList, net.firstThroughNode - 1 ≤ i) →
      ReachInv net origin st →
      ReachInv net origin (spLoop net fuel scanList st) := by
  intro fuel
  induction fuel with
  | zero => intro _ st _ hinv; exact hinv
  | succ f ih =>
      intro scanList st hscan hinv
      match scanList with
      | [] => exact hinv
      | i :: rest =>
          simp only [spLoop]
          have hlt : argminPos ((i :: rest).map st.pot) < (i :: rest).length := by
            simpa using argminPos_lt_length ((i :: rest).map st.pot) (by simp)
          have hmem : (i :: rest).getD (argminPos ((i :: rest).map st.pot)) 0 ∈ i :: rest :=
            getD_mem hlt 0
          apply ih
          · intro j hj
            exact hscan j (List.eraseIdx_subset _ _ hj)
          · apply relaxAll_reachInv
            · have := hscan _ hmem; omega
            · intro l hl
              have hfl := List.mem_filter.mp hl
              exact ⟨hfl.1, of_decide_eq_true hfl.2⟩
            · exact hheads
            · exact hinv

/-- Claim C9.  For every network whose link heads are valid node IDs and
every node `n` unreachable from the origin under the through-node
restriction, after `ShortestPath(origin)` the node's potential is still
`inf` and its predecessor still absent, both in the returned table and in
the node state. -/
theorem sp_unreachable_stays_inf (net : Network) (origin n : ℕ)
    (horigin : 1 ≤ origin)
    (hheads : ∀ l ∈ net.links, 1 ≤ l.head)
    (hn1 : 1 ≤ n) (hn2 : n ≤ net.numNodes)
    (hur : ¬ Reach net origin n) :
    (ShortestPath net origin).2.getD (n - 1) (none, none) = (none, none) ∧
    (ShortestPath net origin).1.pot (n - 1) = none ∧
    (ShortestPath net origin).1.pre (n - 1) = none := by
  have hinv0 : ReachInv net origin (initState origin) := by
    intro j
    constructor
    · intro hj
      by_cases hje : j = origin - 1
      · subst hje
        have heq : origin - 1 + 1 = origin := by omega
        rw [heq]
        exact Reach.refl
      · exact absurd (by simp [initState, upd, hje]) hj
    · intro hj
      exact absurd rfl hj
  have hscan : ∀ i ∈ scanList0 net, net.firstThroughNode - 1 ≤ i := by
    intro i hi
    exact (List.mem_range'_1.mp hi).1
  have hfin := spLoop_reachInv net origin hheads (scanList0 net).length
    (scanList0 net) (initState origin) hscan hinv0
  have hpot : (spLoop net (scanList0 net).length (scanList0 net)
      (initState origin)).pot (n - 1) = none := by
    by_contra hne
    exact hur (by
      have := (hfin (n - 1)).1 hne
      rwa [(by omega : n - 1 + 1 = n)] at this)
  have hpre : (spLoop net (scanList0 net).length (scanList0 net)
      (initState origin)).pre (n - 1) = none := by
    by_contra hne
    exact hur (by
      have := (hfin (n - 1)).2 hne
      rwa [(by omega : n - 1 + 1 = n)] at this)
  refine ⟨?_, hpot, hpre⟩
  show ((List.range net.numNodes).map _).getD (n - 1) (none, none) = _
  rw [List.getD_eq_getElem _ _ (by simpa using (by omega : n - 1 < net.numNodes))]
  simp [hpot, hpre]

/-- A two-node network with no links: node 2 is unreachable from node 1. -/
def netTwoIso : Network :=
  { numNodes := 2, firstThroughNode := 1, links := [],
    pot := fun _ => none, pre := fun _ => none, ODpairs := [] }

theorem not_reach_netTwoIso : ¬ Reach netTwoIso 1 2 := by
  intro h
  cases h with
  | step hr hth hl ht hh => exact absurd hl (by simp [netTwoIso])

/-- Witness for the C9 theorem: in `netTwoIso`, node 2 is unreachable
from origin 1 and ends at `(inf, None)`. -/
theorem sp_unreachable_stays_inf_witness :
    (ShortestPath netTwoIso 1).2.getD 1 (none, none) = (none, none) ∧
    (ShortestPath netTwoIso 1).1.pot 1 = none ∧
    (ShortestPath netTwoIso 1).1.pre 1 = none :=
  sp_unreachable_stays_inf netTwoIso 1 2 (by norm_num)
    (by simp [netTwoIso]) (by norm_num) (by norm_num [netTwoIso])
    not_reach_netTwoIso

/-! The shape of the `ShortestPath` output table. -/

theorem range_map_getD {α : Type} (k i : ℕ) (f : ℕ → α) (d : α) (h : i < k) :
    ((List.range k).map f).getD i d = f i := by
  rw [List.getD_eq_getElem _ d (by simpa using h)]
  simp

/-- Search-state invariant for non-negative link costs: potentials are
non-negative, the origin keeps `(0, None)`, every recorded predecessor is
the tail ID of a link into its node, and nodes of infinite potential have
no predecessor. -/
def TableInv (net : Network) (origin : ℕ) (st : SPState) : Prop :=
  (∀ j q, st.pot j = some q → 0 ≤ q) ∧
  st.pot (origin - 1) = some 0 ∧
  st.pre (origin - 1) = none ∧
  (∀ j p, st.pre j = some p → ∃ l ∈ net.links, l.tail = p ∧ l.head = j + 1) ∧
  (∀ j, st.pot j = none → st.pre j = none)

theorem relaxStep_tableInv (net : Network) (origin : ℕ) (st : SPState)
    (idx : ℕ) (l : Link)
    (hcosts : ∀ m ∈ net.links, 0 ≤ m.cost)
    (hheads : ∀ m ∈ net.links, 1 ≤ m.head)
    (hl : l ∈ net.links) (ht : l.tail = idx + 1)
    (hinv : TableInv net origin st) :
    TableInv net origin (relaxStep st idx l) := by
  obtain ⟨hnn, hopot, hopre, hpre, hnone⟩ := hinv
  rw [relaxStep]
  by_cases hc : potGt (st.pot (l.head - 1)) (potAdd (st.pot idx) l.cost)
  · rw [if_pos hc]
    rcases hq : st.pot idx with _ | q
    · rw [hq] at hc
      simp only [potAdd, potGt_none] at hc
    · rw [hq] at hc
      simp only [potAdd] at hc ⊢
      have hq0 : 0 ≤ q := hnn idx q hq
      have hc0 : 0 ≤ l.cost := hcosts l hl
      have hh1 : 1 ≤ l.head := hheads l hl
      have hne : l.head - 1 ≠ origin - 1 := by
        intro he
        rw [he, hopot] at hc
        simp only [potGt] at hc
        linarith
      refine ⟨?_, ?_, ?_, ?_, ?_⟩
      · intro j r hr
        by_cases hj : j = l.head - 1
        · subst hj
          have h2 : q + l.cost = r := Option.some_inj.mp (by simpa [upd] using hr)
          linarith
        · exact hnn j r (by simpa [upd, hj] using hr)
      · simpa [upd, Ne.symm hne] using hopot
      · simpa [upd, Ne.symm hne] using hopre
      · intro j p hp
        by_cases hj : j = l.head - 1
        · subst hj
          have hp2 : idx + 1 = p := by
            simpa [upd] using hp
          refine ⟨l, hl, by rw [ht, hp2], by omega⟩
        · exact hpre j p (by simpa [upd, hj] using hp)
      · intro j hj
        by_cases hje : j = l.head - 1
        · subst hje
          simp [upd] at hj
        · have : st.pot j = none := by simpa [upd, hje] using hj
          simpa [upd, hje] using hnone j this
  · rw [if_neg hc]
    exact ⟨hnn, hopot, hopre, hpre, hnone⟩

theorem relaxAll_tableInv (net : Network) (origin : ℕ) (st : SPState)
    (idx : ℕ) (fs : List Link)
    (hcosts : ∀ m ∈ net.links, 0 ≤ m.cost)
    (hheads : ∀ m ∈ net.links, 1 ≤ m.head)
    (hfs : ∀ l ∈ fs, l ∈ net.links ∧ l.tail = idx + 1)
    (hinv : TableInv net origin st) :
    TableInv net origin (relaxAll st idx fs) := by
  induction fs generalizing st with
  | nil => exact hinv
  | cons l fs ih =>
      show TableInv net origin (relaxAll (relaxStep st idx l) idx fs)
      have hmem := hfs l (List.mem_cons_self l fs)
      exact ih _ (fun m hm => hfs m (List.mem_cons_of_mem _ hm))
        (relaxStep_tableInv net origin st idx l hcosts hheads hmem.1 hmem.2 hinv)

theorem spLoop_tableInv (net : Network) (origin : ℕ)
    (hcosts : ∀ m ∈ net.links, 0 ≤ m.cost)
    (hheads : ∀ m ∈ net.links, 1 ≤ m.head) :
    ∀ (fuel : ℕ) (scanList : List ℕ) (st : SPState),
      TableInv net origin st →
      TableInv net origin (spLoop net fuel scanList st) := by
  intro fuel
  induction fuel with
  | zero => intro _ st hinv; exact hinv
  | succ f ih =>
      intro scanList st hinv
      match scanList with
      | [] => exact hinv
      | i :: rest =>
          simp only [spLoop]
          apply ih
          apply relaxAll_tableInv _ _ _ _ _ hcosts hheads _ hinv
          intro l hl
          have hfl := List.mem_filter.mp hl
          exact ⟨hfl.1, of_decide_eq_true hfl.2⟩

/-- Claim C10.  For every network with non-negative stored link costs and
valid link heads, and every origin in range, the `ShortestPath` output is
a table with exactly one `(potential, predecessor)` entry per node in
node-index order (position = node ID − 1); the origin's entry is
`(0, None)`; every recorded predecessor is the integer node ID of the
tail of a network link into that node; and unreached nodes (infinite
potential) have predecessor `None`. -/
theorem sp_output_table (net : Network) (origin : ℕ)
    (ho1 : 1 ≤ origin) (ho2 : origin ≤ net.numNodes)
    (hcosts : ∀ l ∈ net.links, 0 ≤ l.cost)
    (hheads : ∀ l ∈ net.links, 1 ≤ l.head) :
    ((ShortestPath net origin).2).length = net.numNodes ∧
    (ShortestPath net origin).2.getD (origin - 1) (none, none) = (some 0, none) ∧
    (∀ i, i < net.numNodes →
      ∀ p, ((ShortestPath net origin).2.getD i (none, none)).2 = some p →
        ∃ l ∈ net.links, l.tail = p ∧ l.head = i + 1) ∧
    (∀ i, i < net.numNodes →
      ((ShortestPath net origin).2.getD i (none, none)).1 = none →
      ((ShortestPath net origin).2.getD i (none, none)).2 = none) := by
  have hinv0 : TableInv net origin (initState origin) := by
    refine ⟨?_, ?_, rfl, ?_, ?_⟩
    · intro j q hq
      by_cases hj : j = origin - 1
      · subst hj
        simp only [initState, upd, if_pos rfl] at hq
        rw [← (Option.some.injEq _ _).mp hq]
      · simp [initState, upd, hj] at hq
    · simp [initState, upd]
    · intro j p hp
      exact absurd hp (by simp [initState])
    · intro j _
      rfl
  have hfin := spLoop_tableInv net origin hcosts hheads (scanList0 net).length
    (scanList0 net) (initState origin) hinv0
  obtain ⟨hnn, hopot, hopre, hpre, hnone⟩ := hfin
  have hlen : ((ShortestPath net origin).2).length = net.numNodes := by
    simp [ShortestPath]
  have hoi : origin - 1 < net.numNodes := by omega
  refine ⟨hlen, ?_, ?_, ?_⟩
  · show ((List.range net.numNodes).map _).getD (origin - 1) (none, none) = _
    rw [range_map_getD _ _ _ _ hoi]
    rw [hopot, hopre]
  · intro i hi p hp
    rw [show (ShortestPath net origin).2 = (List.range net.numNodes).map _ from rfl,
      range_map_getD _ _ _ _ hi] at hp
    exact hpre i p hp
  · intro i hi hp
    rw [show (ShortestPath net origin).2 = (List.range net.numNodes).map _ from rfl,
      range_map_getD _ _ _ _ hi] at hp ⊢
    exact hnone i hp

/-- Witness for the C10 theorem at `netSL` with origin 1: the table has
one entry per node, the origin's entry is `(0, None)`, and node 2's
recorded predecessor 1 is the tail of the network's link into node 2. -/
theorem sp_output_table_witness :
    ((ShortestPath netSL 1).2).length = netSL.numNodes ∧
    (ShortestPath netSL 1).2.getD 0 (none, none) = (some 0, none) ∧
    (∃ l ∈ netSL.links, l.tail = 1 ∧ l.head = 2) := by
  have h := sp_output_table netSL 1 (by norm_num) (by norm_num [netSL])
    (by intro l hl; simp [netSL, linkSL] at hl; simp [hl, linkSL])
    (by intro l hl; simp [netSL, linkSL] at hl; simp [hl, linkSL])
  refine ⟨h.1, h.2.1, ?_⟩
  apply h.2.2.1 1 (by norm_num [netSL]) 1
  norm_num [ShortestPath, scanList0, spLoop, initState, relaxAll, relaxStep,
    forwardStar, argminPos, listMin, potMin, potLe, potGt, potAdd, upd,
    netSL, linkSL, List.range', List.range_succ, List.eraseIdx,
    List.getD, List.filter]

/-! The AON frame property: no link is mutated, and the returned
dictionary has exactly the link keys. -/

theorem aonOrigin_links (acc : Network × Option (List ((ℕ × ℕ) × ℚ)))
    (od : ℕ × List (ℕ × ℚ)) : ((aonOrigin acc od).1).links = acc.1.links := rfl

theorem foldl_aonOrigin_links (ods : List (ℕ × List (ℕ × ℚ))) :
    ∀ acc : Network × Option (List ((ℕ × ℕ) × ℚ)),
      ((ods.foldl aonOrigin acc).1).links = acc.1.links := by
  induction ods with
  | nil => intro acc; rfl
  | cons od ods ih =>
      intro acc
      rw [List.foldl_cons, ih, aonOrigin_links]

theorem bump_keys (m : List ((ℕ × ℕ) × ℚ)) (key : ℕ × ℕ) (d : ℚ) :
    (bump m key d).map Prod.fst = m.map Prod.fst := by
  induction m with
  | nil => rfl
  | cons e m ih =>
      show ((if e.1 = key then (e.1, e.2 + d) else e).1) :: (bump m key d).map Prod.fst
          = e.1 :: m.map Prod.fst
      rw [ih]
      by_cases he : e.1 = key <;> simp [he]

theorem traceBack_keys (sp : List (Option ℚ × Option ℕ)) (dem : ℚ) :
    ∀ (fuel x : ℕ) (m m2 : List ((ℕ × ℕ) × ℚ)),
      traceBack sp dem fuel x m = some m2 →
      m2.map Prod.fst = m.map Prod.fst := by
  intro fuel
  induction fuel with
  | zero =>
      intro x m m2 h
      rw [traceBack] at h
      rcases hpre : (sp.getD (x - 1) (none, none)).2 with _ | p <;> rw [hpre] at h
      · obtain rfl := Option.some_inj.mp h
        rfl
      · exact Option.noConfusion h
  | succ f ih =>
      intro x m m2 h
      rw [traceBack] at h
      rcases hpre : (sp.getD (x - 1) (none, none)).2 with _ | p <;> rw [hpre] at h
      · obtain rfl := Option.some_inj.mp h
        rfl
      · rw [ih p (bump m (p, x) dem) m2 h]
        exact bump_keys m (p, x) dem

theorem destFold_none (sp : List (Option ℚ × Option ℕ)) (numN : ℕ)
    (dests : List (ℕ × ℚ)) :
    dests.foldl (aonDest sp numN) none = none := by
  induction dests with
  | nil => rfl
  | cons dd dests ih => exact ih

theorem destFold_keys (sp : List (Option ℚ × Option ℕ)) (numN : ℕ)
    (dests : List (ℕ × ℚ)) :
    ∀ (mo : Option (List ((ℕ × ℕ) × ℚ))) (m2 : List ((ℕ × ℕ) × ℚ)),
      dests.foldl (aonDest sp numN) mo = some m2 →
      ∀ m, mo = some m → m2.map Prod.fst = m.map Prod.fst := by
  induction dests with
  | nil =>
      intro mo m2 h m hm
      rw [List.foldl_nil] at h
      rw [hm] at h
      obtain rfl := Option.some_inj.mp h
      rfl
  | cons dd dests ih =>
      intro mo m2 h m hm
      rw [List.foldl_cons] at h
      subst hm
      rcases htb : traceBack sp dd.2 numN dd.1 m with _ | m'
      · rw [show aonDest sp numN (some m) dd = none from by
          simp [aonDest, htb]] at h
        rw [destFold_none sp numN dests] at h
        exact Option.noConfusion h
      · rw [show aonDest sp numN (some m) dd = some m' from by
          simp [aonDest, htb]] at h
        rw [ih _ m2 h m' rfl]
        exact traceBack_keys sp dd.2 numN dd.1 m m' htb

theorem foldl_aonOrigin_none (ods : List (ℕ × List (ℕ × ℚ))) :
    ∀ acc : Network × Option (List ((ℕ × ℕ) × ℚ)),
      acc.2 = none → ((ods.foldl aonOrigin acc).2) = none := by
  induction ods with
  | nil => intro acc h; exact h
  | cons od ods ih =>
      intro acc h
      rw [List.foldl_cons]
      apply ih
      show od.2.foldl (aonDest _ _) acc.2 = none
      rw [h]
      exact destFold_none _ _ _

theorem foldl_aonOrigin_keys (ods : List (ℕ × List (ℕ × ℚ))) :
    ∀ (acc : Network × Option (List ((ℕ × ℕ) × ℚ))) (m2 : List ((ℕ × ℕ) × ℚ)),
      ((ods.foldl aonOrigin acc).2) = some m2 →
      ∀ m, acc.2 = some m → m2.map Prod.fst = m.map Prod.fst := by
  induction ods with
  | nil =>
      intro acc m2 h m hm
      rw [List.foldl_nil] at h
      rw [hm] at h
      obtain rfl := Option.some_inj.mp h
      rfl
  | cons od ods ih =>
      intro acc m2 h m hm
      rw [List.foldl_cons] at h
      rcases h2 : (aonOrigin acc od).2 with _ | m'
      · rw [foldl_aonOrigin_none ods _ h2] at h
        exact Option.noConfusion h
      · rw [ih _ m2 h m' h2]
        exact destFold_keys _ _ od.2 acc.2 m' h2 m hm

/-- Claim C4.  For every network, `AON` leaves every link — in particular
every link's stored `flow` — unchanged, and whenever it returns a flow
dictionary, that dictionary's keys are exactly the `(tail, head)` link
keys, in the links' insertion order. -/
theorem AON_frame_and_keys (net : Network) :
    ((AON net).1).links = net.links ∧
    ∀ m, (AON net).2 = some m →
      m.map Prod.fst = net.links.map (fun l => (l.tail, l.head)) := by
  constructor
  · exact foldl_aonOrigin_links net.ODpairs (net, some (initFlow net))
  · intro m hm
    rw [foldl_aonOrigin_keys net.ODpairs (net, some (initFlow net)) m hm
      (initFlow net) rfl]
    simp [initFlow]

/-- Witness for the C4 theorem at `netSL`: the links are untouched and
the returned dictionary `[((1,2), 50)]` has exactly the link keys. -/
theorem AON_frame_and_keys_witness :
    ((AON netSL).1).links = netSL.links ∧
    ([((1, 2), (50 : ℚ))] : List ((ℕ × ℕ) × ℚ)).map Prod.fst
      = netSL.links.map (fun l => (l.tail, l.head)) :=
  ⟨(AON_frame_and_keys netSL).1,
   (AON_frame_and_keys netSL).2 [((1, 2), (50 : ℚ))] (by
    norm_num [AON, ShortestPath, scanList0, spLoop, initState, relaxAll,
      relaxStep, forwardStar, argminPos, listMin, potMin, potLe, potGt,
      potAdd, upd, netSL, linkSL, List.range', List.range_succ,
      List.eraseIdx, List.getD, List.filter, initFlow, traceBack, bump,
      aonOrigin, aonDest])⟩

end MayurNet
